import Mathlib

/-!
Shallow embedding of the untrusted transaction-admission core and the
connection substrate of the mobilecoin repository.

Embedded source files:
* consensus/service/src/validators.rs
  (DefaultTxManagerUntrustedInterfaces: well_formed_check, is_valid, combine)
* connection/src/attested_connection.rs (AttestedConnection::attested_call)
* connection/src/connection_manager.rs (ConnectionManager::new and accessors)

Modelling conventions: machine integers (u64) are Nat, with wrapping taken
modulo 2 ^ 64 exactly where the source can overflow; Rust Result is Except;
hash sets are lists compared by membership; opaque byte blobs (key images,
compressed public keys, membership proofs) are Nat identifiers, since the
admission core only ever compares them for equality; a TxHash ([u8; 32]) is
a list of byte values because the combiner compares hashes lexicographically.
-/

namespace MobileCoin

/-- A 32-byte transaction hash, modelled as its list of byte values. -/
abbrev TxHash := List Nat

/-- An opaque spent-output tag; only equality is ever used. -/
abbrev KeyImage := Nat

/-- An opaque compressed Ristretto public key; only equality is ever used. -/
abbrev CompressedRistrettoPublic := Nat

/-- An opaque Merkle membership proof; the admission core never inspects it. -/
abbrev TxOutMembershipProof := Nat

/-- The context of a candidate transaction visible to the untrusted
well-formed check (mc_consensus_enclave::TxContext), minus the encrypted
blob the untrusted code never reads. -/
structure TxContext where
  tx_hash : TxHash
  highest_indices : List Nat
  key_images : List KeyImage
  output_public_keys : List CompressedRistrettoPublic
deriving DecidableEq, Repr

/-- The fee-tagged context of a well-formed transaction
(mc_consensus_enclave::WellFormedTxContext). -/
structure WellFormedTxContext where
  fee : Nat
  tx_hash : TxHash
  tombstone_block : Nat
  key_images : List KeyImage
  highest_indices : List Nat
  output_public_keys : List CompressedRistrettoPublic
deriving DecidableEq, Repr

/-- Lexicographic comparison of byte lists, the order of Rust [u8; 32]. -/
def compareBytes : List Nat → List Nat → Ordering
  | [], [] => Ordering.eq
  | [], _ :: _ => Ordering.lt
  | _ :: _, [] => Ordering.gt
  | x :: xs, y :: ys =>
    match compare x y with
    | Ordering.eq => compareBytes xs ys
    | o => o

/-- Modelled from the spec: the Ord implementation of WellFormedTxContext
lives in mc_consensus_enclave (not under src/); section 3 of the spec defines
it as fee descending, ties broken by tx_hash ascending byte-lexicographic. -/
def cmpCtx (a b : WellFormedTxContext) : Ordering :=
  match compare b.fee a.fee with
  | Ordering.eq => compareBytes a.tx_hash b.tx_hash
  | o => o

/-- The non-strict sort relation induced by cmpCtx, as used by Vec::sort. -/
def ctxLe (a b : WellFormedTxContext) : Prop := cmpCtx a b ≠ Ordering.gt

instance : DecidableRel ctxLe :=
  fun a b => inferInstanceAs (Decidable (cmpCtx a b ≠ Ordering.gt))

/-- Rust validators.rs combine loop. The source guard
allowed_hashes.len() >= max_elements is carried as the remaining budget
max_elements - allowed_hashes.len(), which is zero exactly when the guard
fires; usedKi and usedPk are the used_key_images / used_output_public_keys
hash sets, modelled as lists queried by membership. -/
def combineGo (usedKi : List KeyImage) (usedPk : List CompressedRistrettoPublic)
    (budget : Nat) : List WellFormedTxContext → List TxHash
  | [] => []
  | candidate :: rest =>
    if budget = 0 then []
    else if candidate.key_images.any (fun k => decide (k ∈ usedKi)) then
      combineGo usedKi usedPk budget rest
    else if candidate.output_public_keys.any (fun p => decide (p ∈ usedPk)) then
      combineGo usedKi usedPk budget rest
    else
      candidate.tx_hash ::
        combineGo (usedKi ++ candidate.key_images)
          (usedPk ++ candidate.output_public_keys) (budget - 1) rest

/-- The same loop, returning the accepted contexts themselves instead of
their hashes; used to state disjointness of the accepted transactions. -/
def combineAcceptedGo (usedKi : List KeyImage)
    (usedPk : List CompressedRistrettoPublic) (budget : Nat) :
    List WellFormedTxContext → List WellFormedTxContext
  | [] => []
  | candidate :: rest =>
    if budget = 0 then []
    else if candidate.key_images.any (fun k => decide (k ∈ usedKi)) then
      combineAcceptedGo usedKi usedPk budget rest
    else if candidate.output_public_keys.any (fun p => decide (p ∈ usedPk)) then
      combineAcceptedGo usedKi usedPk budget rest
    else
      candidate ::
        combineAcceptedGo (usedKi ++ candidate.key_images)
          (usedPk ++ candidate.output_public_keys) (budget - 1) rest

/-- DefaultTxManagerUntrustedInterfaces::combine: sort the candidates by the
WellFormedTxContext order (Vec::sort is a stable sort, modelled by stable
insertion sort on ctxLe), then greedily accept candidates whose key images
and output public keys are disjoint from everything already accepted, up to
max_elements. -/
def combine (tx_contexts : List WellFormedTxContext) (max_elements : Nat) :
    List TxHash :=
  combineGo [] [] max_elements (List.insertionSort ctxLe tx_contexts)

/-- The accepted contexts of a combine run, in output order. -/
def combineAccepted (tx_contexts : List WellFormedTxContext)
    (max_elements : Nat) : List WellFormedTxContext :=
  combineAcceptedGo [] [] max_elements (List.insertionSort ctxLe tx_contexts)

/-- Validation errors of the admission core
(mc_transaction_core::validation::TransactionValidationError, restricted to
the variants the untrusted interfaces produce). -/
inductive TransactionValidationError where
  | Ledger (msg : String)
  | TombstoneBlockExceeded
  | ContainsSpentKeyImage
  | ContainsExistingOutputPublicKey
deriving DecidableEq, Repr

/-- The read-only ledger interface consumed by the validators. Each
storage-faulty query is a Rust Result, modelled as Except. num_tx_outs is
the total TxOut count, referenced only by hypotheses about when the proof
query fails. -/
structure Ledger where
  num_blocks : Except String Nat
  num_tx_outs : Nat
  contains_key_image : KeyImage → Except String Bool
  contains_tx_out_public_key : CompressedRistrettoPublic → Except String Bool
  get_tx_out_proof_of_memberships :
    List Nat → Except String (List TxOutMembershipProof)

/-- Rust Result::unwrap_or on a boolean ledger query. -/
def unwrapOr (r : Except String Bool) (d : Bool) : Bool :=
  match r with
  | Except.ok b => b
  | Except.error _ => d

/-- Modelled from the spec: validate_tombstone of
mc_transaction_core::validation is not under src/; section 4.2 of the spec
defines it as failing with TombstoneBlockExceeded iff
cur >= C.tombstone_block. -/
def validate_tombstone (current_block_index tombstone_block : Nat) :
    Except TransactionValidationError Unit :=
  if tombstone_block ≤ current_block_index then
    Except.error TransactionValidationError.TombstoneBlockExceeded
  else Except.ok ()

/-- DefaultTxManagerUntrustedInterfaces::is_valid: read num_blocks, check
the tombstone, then the key images, then the output public keys; errored
boolean queries count as true (unwrap_or(true)). -/
def is_valid (ledger : Ledger) (context : WellFormedTxContext) :
    Except TransactionValidationError Unit :=
  match ledger.num_blocks with
  | Except.error e => Except.error (TransactionValidationError.Ledger e)
  | Except.ok current_block_index =>
    match validate_tombstone current_block_index context.tombstone_block with
    | Except.error e => Except.error e
    | Except.ok _ =>
      if context.key_images.any
          (fun key_image => unwrapOr (ledger.contains_key_image key_image) true) then
        Except.error TransactionValidationError.ContainsSpentKeyImage
      else if context.output_public_keys.any
          (fun public_key => unwrapOr (ledger.contains_tx_out_public_key public_key) true) then
        Except.error TransactionValidationError.ContainsExistingOutputPublicKey
      else Except.ok ()

/-- The u64 modulus. -/
def U64_LIMIT : Nat := 2 ^ 64

/-- Rust u64 subtraction in release mode: wraps modulo 2 ^ 64. Both
arguments are assumed below 2 ^ 64, as every u64 value is. -/
def u64_sub (a b : Nat) : Nat := (a + U64_LIMIT - b) % U64_LIMIT

/-- The u64 subtraction a - b underflows (panics in debug builds, wraps in
release builds) exactly when a < b. -/
def u64SubUnderflows (a b : Nat) : Prop := a < b

/-- DefaultTxManagerUntrustedInterfaces::well_formed_check: fetch the
membership proofs for the highest indices first, then the block count, and
return (num_blocks - 1, proofs); either ledger failure becomes
TransactionValidationError::Ledger. The subtraction is the u64 subtraction
of the source. -/
def well_formed_check (ledger : Ledger) (tx_context : TxContext) :
    Except TransactionValidationError (Nat × List TxOutMembershipProof) :=
  match ledger.get_tx_out_proof_of_memberships tx_context.highest_indices with
  | Except.error e => Except.error (TransactionValidationError.Ledger e)
  | Except.ok membership_proofs =>
    match ledger.num_blocks with
    | Except.error e => Except.error (TransactionValidationError.Ledger e)
    | Except.ok num_blocks => Except.ok (u64_sub num_blocks 1, membership_proofs)

/-- Errors of the grpcio transport layer; an RpcFailure carries the status
code of the response, other variants are collapsed into their code. -/
inductive GrpcError where
  | rpcFailure (status : Nat)
  | other (code : Nat)
deriving DecidableEq, Repr

/-- The grpc UNAUTHENTICATED status code. -/
def UNAUTHENTICATED : Nat := 16

/-- The error type of an attested connection
(AttestedConnection::Error: AttestationError + From GrpcError): either an
attestation failure or a converted transport error. -/
inductive PeerError where
  | attestation (cause : Nat)
  | grpc (e : GrpcError)
deriving DecidableEq, Repr

/-- The attestation state of one connection. -/
structure ConnState where
  attested : Bool
deriving DecidableEq, Repr

/-- Observable effects of one attested_call run, in order. -/
inductive CallEvent where
  | attestCall
  | fCall
  | deattestCall
deriving DecidableEq, Repr

/-- The part of attested_call after attestation succeeded: invoke func,
deattest when it failed with an UNAUTHENTICATED RpcFailure, and surface its
transport error converted by From (Ok(result?) in the source). -/
def attestedCallBody (T : Type) (s1 : ConnState) (fRes : Except GrpcError T)
    (pre : List CallEvent) : ConnState × Except PeerError T × List CallEvent :=
  match fRes with
  | Except.error (GrpcError.rpcFailure status) =>
    if status = UNAUTHENTICATED then
      (⟨false⟩, Except.error (PeerError.grpc (GrpcError.rpcFailure status)),
        pre ++ [CallEvent.fCall, CallEvent.deattestCall])
    else
      (s1, Except.error (PeerError.grpc (GrpcError.rpcFailure status)),
        pre ++ [CallEvent.fCall])
  | Except.error g => (s1, Except.error (PeerError.grpc g), pre ++ [CallEvent.fCall])
  | Except.ok t => (s1, Except.ok t, pre ++ [CallEvent.fCall])

/-- AttestedConnection::attested_call. attest and func are abstract in the
trait, so the embedding is parameterised by their outcomes: attestRes is
what attest() would return when called (success sets the attested flag,
failure leaves it clear), and fRes is the transport result of func, which
does not itself touch the attestation flag. The returned list records the
observable calls in order. -/
def attestedCall (T : Type) (s : ConnState) (attestRes : Except PeerError Unit)
    (fRes : Except GrpcError T) : ConnState × Except PeerError T × List CallEvent :=
  if s.attested then
    attestedCallBody T s fRes []
  else
    match attestRes with
    | Except.error e => (s, Except.error e, [CallEvent.attestCall])
    | Except.ok _ => attestedCallBody T ⟨true⟩ fRes [CallEvent.attestCall]

/-- A peer connection as the manager sees it: its ResponderId (derived
deterministically from the connection URI) and the underlying client. -/
structure PeerConn where
  responder_id : Nat
  client : Nat
deriving DecidableEq, Repr

/-- Insertion into the HashMap of ConnectionManager, keyed by ResponderId:
an existing entry with the same key is overwritten in place, otherwise the
entry is appended (Rust HashMap::from_iter lets later values overwrite
earlier ones). -/
def hashMapInsert (m : List (Nat × PeerConn)) (k : Nat) (v : PeerConn) :
    List (Nat × PeerConn) :=
  if m.any (fun kv => kv.1 = k) then
    m.map (fun kv => if kv.1 = k then (k, v) else kv)
  else m ++ [(k, v)]

/-- ConnectionManager::new: build the ResponderId-keyed map from the
connection list with HashMap::from_iter semantics. Construction is total:
there is no failure path for duplicate responder ids. -/
def connectionManagerNew (connections : List PeerConn) : List (Nat × PeerConn) :=
  connections.foldl (fun m conn => hashMapInsert m conn.responder_id conn) []

/-- ConnectionManager::get_connection: HashMap lookup by ResponderId. -/
def managerGet : List (Nat × PeerConn) → Nat → Option PeerConn
  | [], _ => none
  | kv :: rest, r => if kv.1 = r then some kv.2 else managerGet rest r

/-- The last connection of a list whose URI derives the given ResponderId,
or none when no connection of the list does. -/
def lastConnWith : List PeerConn → Nat → Option PeerConn
  | [], _ => none
  | c :: rest, r =>
    match lastConnWith rest r with
    | some c2 => some c2
    | none => if c.responder_id = r then some c else none

/-- Two contexts conflict on nothing: no shared key image, no shared output
public key. -/
def disjointCtx (a b : WellFormedTxContext) : Prop :=
  (∀ k ∈ a.key_images, k ∉ b.key_images) ∧
  (∀ p ∈ a.output_public_keys, p ∉ b.output_public_keys)

instance (a b : WellFormedTxContext) : Decidable (disjointCtx a b) :=
  inferInstanceAs (Decidable (_ ∧ _))

/-- The ledger boolean query counted as a spent key image by is_valid: it
answered true or it errored. -/
def queryFlagsSpent (ledger : Ledger) (k : KeyImage) : Prop :=
  ledger.contains_key_image k = Except.ok true ∨
  ∃ e, ledger.contains_key_image k = Except.error e

/-- The ledger boolean query counted as an existing output public key by
is_valid: it answered true or it errored. -/
def queryFlagsExisting (ledger : Ledger) (p : CompressedRistrettoPublic) : Prop :=
  ledger.contains_tx_out_public_key p = Except.ok true ∨
  ∃ e, ledger.contains_tx_out_public_key p = Except.error e

/-! Concrete inputs used by counterexamples and witnesses. Each context is
individually well formed: its key images are pairwise distinct and its
output public keys are pairwise distinct. -/

/-- Fee 2, hash 00, key image 1, output key 10. -/
def c1p : WellFormedTxContext := ⟨2, [0], 0, [1], [], [10]⟩

/-- Fee 1, hash 05, key image 2, output key 20; ties with c1b under cmpCtx. -/
def c1a : WellFormedTxContext := ⟨1, [5], 0, [2], [], [20]⟩

/-- Fee 1, hash 05, key image 2, output key 21; ties with c1a under cmpCtx. -/
def c1b : WellFormedTxContext := ⟨1, [5], 0, [2], [], [21]⟩

/-- Fee 0, hash 07, key image 3, output key 21. -/
def c1d : WellFormedTxContext := ⟨0, [7], 0, [3], [], [21]⟩

/-- Fee 3, hash 01, key image 4, output key 40. -/
def c1x : WellFormedTxContext := ⟨3, [1], 0, [4], [], [40]⟩

/-- Fee 1, hash 02, key image 5, output key 50. -/
def c1y : WellFormedTxContext := ⟨1, [2], 0, [5], [], [50]⟩

/-- The three contexts of spec scenario 6 (fee 100, 557, 88; hashes the
32-byte arrays of 1, 2, 3; no conflict sets). -/
def c8a : WellFormedTxContext := ⟨100, List.replicate 32 1, 0, [], [], []⟩

/-- Second context of spec scenario 6. -/
def c8b : WellFormedTxContext := ⟨557, List.replicate 32 2, 0, [], [], []⟩

/-- Third context of spec scenario 6. -/
def c8c : WellFormedTxContext := ⟨88, List.replicate 32 3, 0, [], [], []⟩

/-- A healthy ledger with three blocks. -/
def ledgerC3 : Ledger :=
  ⟨Except.ok 3, 100, fun _ => Except.ok false, fun _ => Except.ok false,
    fun idx => Except.ok (idx.map (fun _ => 0))⟩

/-- A context whose tombstone block equals the block count of ledgerC3. -/
def ctxC3 : WellFormedTxContext := ⟨10, [1], 3, [], [], []⟩

/-- A ledger whose key-image query errors on key image 2 and whose
output-key query reports key 5 as present. -/
def ledgerC4 : Ledger :=
  ⟨Except.ok 3, 100,
    fun k => if k = 2 then Except.error "io" else Except.ok false,
    fun p => Except.ok (decide (p = 5)),
    fun idx => Except.ok (idx.map (fun _ => 0))⟩

/-- A context that trips both boolean checks of ledgerC4. -/
def ctxC4 : WellFormedTxContext := ⟨10, [1], 9, [2], [], [5]⟩

/-- A ledger whose membership-proof query always fails. -/
def ledgerC7 : Ledger :=
  ⟨Except.ok 4, 100, fun _ => Except.ok false, fun _ => Except.ok false,
    fun _ => Except.error "io"⟩

/-- A transaction context with two highest indices. -/
def tcC7 : TxContext := ⟨[1], [3, 5], [], []⟩

/-- A ledger reporting zero blocks whose proof query succeeds. -/
def ledgerC9 : Ledger :=
  ⟨Except.ok 0, 100, fun _ => Except.ok false, fun _ => Except.ok false,
    fun idx => Except.ok (idx.map (fun i => i))⟩

/-- A transaction context with two highest indices. -/
def tcC9 : TxContext := ⟨[1], [0, 2], [], []⟩

/-- Two distinct connections whose URIs derive the same ResponderId 5. -/
def dupA : PeerConn := ⟨5, 1⟩

/-- Second connection with ResponderId 5. -/
def dupB : PeerConn := ⟨5, 2⟩

/-! Helper lemmas about the sort order. -/

theorem swap_lt : Ordering.lt.swap = Ordering.gt := rfl

theorem swap_eq : Ordering.eq.swap = Ordering.eq := rfl

theorem swap_gt : Ordering.gt.swap = Ordering.lt := rfl

theorem nat_compare_swap (a b : Nat) : compare b a = (compare a b).swap := by
  rcases Nat.lt_trichotomy a b with h | h | h
  · rw [Nat.compare_eq_lt.mpr h, Nat.compare_eq_gt.mpr h, swap_lt]
  · subst h
    rw [Nat.compare_eq_eq.mpr rfl, swap_eq]
  · rw [Nat.compare_eq_gt.mpr h, Nat.compare_eq_lt.mpr h, swap_gt]

theorem compareBytes_swap : ∀ xs ys : List Nat,
    compareBytes ys xs = (compareBytes xs ys).swap := by
  intro xs
  induction xs with
  | nil => intro ys; cases ys <;> rfl
  | cons x xt ih =>
    intro ys
    cases ys with
    | nil => rfl
    | cons y yt =>
      have hswap : compare y x = (compare x y).swap := nat_compare_swap x y
      cases hcmp : compare x y with
      | lt =>
        rw [hcmp, swap_lt] at hswap
        simp [compareBytes, hcmp, hswap, swap_lt]
      | eq =>
        rw [hcmp, swap_eq] at hswap
        simp [compareBytes, hcmp, hswap, swap_eq, ih yt]
      | gt =>
        rw [hcmp, swap_gt] at hswap
        simp [compareBytes, hcmp, hswap, swap_gt]

theorem compareBytes_eq_iff : ∀ xs ys : List Nat,
    compareBytes xs ys = Ordering.eq ↔ xs = ys := by
  intro xs
  induction xs with
  | nil => intro ys; cases ys <;> simp [compareBytes]
  | cons x xt ih =>
    intro ys
    cases ys with
    | nil => simp [compareBytes]
    | cons y yt =>
      cases hcmp : compare x y with
      | lt =>
        have : x ≠ y := by have := Nat.compare_eq_lt.mp hcmp; omega
        simp [compareBytes, hcmp, this]
      | eq =>
        have hxy : x = y := Nat.compare_eq_eq.mp hcmp
        subst hxy
        simp [compareBytes, hcmp, ih yt]
      | gt =>
        have : x ≠ y := by have := Nat.compare_eq_gt.mp hcmp; omega
        simp [compareBytes, hcmp, this]

theorem cmpCtx_swap (a b : WellFormedTxContext) :
    cmpCtx b a = (cmpCtx a b).swap := by
  unfold cmpCtx
  have hswap : compare a.fee b.fee = (compare b.fee a.fee).swap :=
    nat_compare_swap b.fee a.fee
  cases hcmp : compare b.fee a.fee with
  | lt =>
    rw [hcmp, swap_lt] at hswap
    simp [hcmp, hswap, swap_lt]
  | eq =>
    rw [hcmp, swap_eq] at hswap
    simp only [hcmp, hswap, swap_eq]
    exact compareBytes_swap a.tx_hash b.tx_hash
  | gt =>
    rw [hcmp, swap_gt] at hswap
    simp [hcmp, hswap, swap_gt]

theorem ctxLe_total_thm : ∀ a b : WellFormedTxContext, ctxLe a b ∨ ctxLe b a := by
  intro a b
  unfold ctxLe
  rw [cmpCtx_swap a b]
  cases cmpCtx a b <;> simp [swap_lt, swap_eq, swap_gt]

theorem cmpCtx_eq_of_le_le {a b : WellFormedTxContext} (h1 : ctxLe a b)
    (h2 : ctxLe b a) : cmpCtx a b = Ordering.eq := by
  unfold ctxLe at h1 h2
  rw [cmpCtx_swap a b] at h2
  cases h : cmpCtx a b
  case lt =>
    exfalso
    rw [h, swap_lt] at h2
    exact h2 rfl
  case eq => rfl
  case gt =>
    exfalso
    rw [h] at h1
    exact h1 rfl

theorem cmpCtx_eq_iff (a b : WellFormedTxContext) :
    cmpCtx a b = Ordering.eq ↔ a.fee = b.fee ∧ a.tx_hash = b.tx_hash := by
  unfold cmpCtx
  cases hcmp : compare b.fee a.fee with
  | lt =>
    have := Nat.compare_eq_lt.mp hcmp
    constructor
    · intro h; simp at h
    · intro ⟨h, _⟩; omega
  | eq =>
    have hfee : b.fee = a.fee := Nat.compare_eq_eq.mp hcmp
    simp only [compareBytes_eq_iff]
    constructor
    · intro h; exact ⟨hfee.symm, h⟩
    · intro ⟨_, h⟩; exact h
  | gt =>
    have := Nat.compare_eq_gt.mp hcmp
    constructor
    · intro h; simp at h
    · intro ⟨h, _⟩; omega

theorem ctxLe_iff (a b : WellFormedTxContext) :
    ctxLe a b ↔ b.fee < a.fee ∨
      (b.fee = a.fee ∧ compareBytes a.tx_hash b.tx_hash ≠ Ordering.gt) := by
  unfold ctxLe cmpCtx
  cases hcmp : compare b.fee a.fee with
  | lt =>
    have := Nat.compare_eq_lt.mp hcmp
    simp [this]
  | eq =>
    have := Nat.compare_eq_eq.mp hcmp
    simp [this]
  | gt =>
    have := Nat.compare_eq_gt.mp hcmp
    constructor
    · intro h; simp at h
    · intro h
      rcases h with h | ⟨h, _⟩ <;> omega

theorem compareBytes_le_trans : ∀ xs ys zs : List Nat,
    compareBytes xs ys ≠ Ordering.gt → compareBytes ys zs ≠ Ordering.gt →
    compareBytes xs zs ≠ Ordering.gt := by
  intro xs
  induction xs with
  | nil =>
    intro ys zs _ _
    cases zs <;> simp [compareBytes]
  | cons x xt ih =>
    intro ys zs h1 h2
    cases ys with
    | nil => simp [compareBytes] at h1
    | cons y yt =>
      cases zs with
      | nil => simp [compareBytes] at h2
      | cons z zt =>
        simp only [compareBytes] at h1 h2 ⊢
        cases hxy : compare x y with
        | gt => rw [hxy] at h1; simp at h1
        | lt =>
          have hxylt := Nat.compare_eq_lt.mp hxy
          cases hyz : compare y z with
          | gt => rw [hyz] at h2; simp at h2
          | lt =>
            have := Nat.compare_eq_lt.mp hyz
            rw [Nat.compare_eq_lt.mpr (by omega : x < z)]
            simp
          | eq =>
            have := Nat.compare_eq_eq.mp hyz
            rw [Nat.compare_eq_lt.mpr (by omega : x < z)]
            simp
        | eq =>
          have hxyeq := Nat.compare_eq_eq.mp hxy
          rw [hxy] at h1
          cases hyz : compare y z with
          | gt => rw [hyz] at h2; simp at h2
          | lt =>
            have := Nat.compare_eq_lt.mp hyz
            rw [Nat.compare_eq_lt.mpr (by omega : x < z)]
            simp
          | eq =>
            have := Nat.compare_eq_eq.mp hyz
            rw [hyz] at h2
            rw [Nat.compare_eq_eq.mpr (by omega : x = z)]
            exact ih yt zt h1 h2

theorem ctxLe_trans_thm : ∀ a b c : WellFormedTxContext,
    ctxLe a b → ctxLe b c → ctxLe a c := by
  intro a b c h1 h2
  rw [ctxLe_iff] at h1 h2 ⊢
  rcases h1 with h1 | ⟨e1, t1⟩
  · rcases h2 with h2 | ⟨e2, t2⟩
    · left; omega
    · left; omega
  · rcases h2 with h2 | ⟨e2, t2⟩
    · left; omega
    · right
      exact ⟨by omega, compareBytes_le_trans _ _ _ t1 t2⟩

/-! Helper lemmas about sorting and the combine loop. -/

theorem sorted_perm_eq : ∀ l1 l2 : List WellFormedTxContext,
    List.Perm l1 l2 → List.Sorted ctxLe l1 → List.Sorted ctxLe l2 →
    (∀ a ∈ l1, ∀ b ∈ l1, cmpCtx a b = Ordering.eq → a = b) → l1 = l2 := by
  intro l1
  induction l1 with
  | nil =>
    intro l2 p _ _ _
    exact (p.symm.eq_nil).symm
  | cons a t1 ih =>
    intro l2 p s1 s2 hanti
    cases l2 with
    | nil => exact absurd p.eq_nil (List.cons_ne_nil a t1)
    | cons b t2 =>
      have hab : a = b := by
        by_contra hne
        have hamem : a ∈ b :: t2 := p.mem_iff.mp (List.mem_cons_self a t1)
        have hbmem : b ∈ a :: t1 := p.symm.mem_iff.mp (List.mem_cons_self b t2)
        have ha2 : a ∈ t2 := by
          rcases List.mem_cons.mp hamem with h | h
          · exact absurd h hne
          · exact h
        have hb1 : b ∈ t1 := by
          rcases List.mem_cons.mp hbmem with h | h
          · exact absurd h.symm hne
          · exact h
        have hle1 : ctxLe a b := List.rel_of_sorted_cons s1 b hb1
        have hle2 : ctxLe b a := List.rel_of_sorted_cons s2 a ha2
        exact hne (hanti a (List.mem_cons_self a t1) b
          (List.mem_cons_of_mem a hb1) (cmpCtx_eq_of_le_le hle1 hle2))
      subst hab
      have pt : List.Perm t1 t2 := p.cons_inv
      have ht : t1 = t2 :=
        ih t2 pt s1.of_cons s2.of_cons
          (fun x hx y hy =>
            hanti x (List.mem_cons_of_mem a hx) y (List.mem_cons_of_mem a hy))
      rw [ht]

theorem insertionSort_eq_of_perm (S1 S2 : List WellFormedTxContext)
    (p : List.Perm S1 S2)
    (hkeys : ∀ a ∈ S2, ∀ b ∈ S2, cmpCtx a b = Ordering.eq → a = b) :
    List.insertionSort ctxLe S1 = List.insertionSort ctxLe S2 := by
  haveI : IsTotal WellFormedTxContext ctxLe := ⟨ctxLe_total_thm⟩
  haveI : IsTrans WellFormedTxContext ctxLe := ⟨ctxLe_trans_thm⟩
  have p1 : List.Perm (List.insertionSort ctxLe S1) S2 :=
    (List.perm_insertionSort ctxLe S1).trans p
  have p2 : List.Perm (List.insertionSort ctxLe S1) (List.insertionSort ctxLe S2) :=
    p1.trans (List.perm_insertionSort ctxLe S2).symm
  exact sorted_perm_eq _ _ p2
    (List.sorted_insertionSort ctxLe S1) (List.sorted_insertionSort ctxLe S2)
    (fun x hx y hy => hkeys x (p1.mem_iff.mp hx) y (p1.mem_iff.mp hy))

theorem disjointCtx_symm : ∀ {a b : WellFormedTxContext},
    disjointCtx a b → disjointCtx b a := by
  intro a b h
  constructor
  · intro k hk hk2
    exact h.1 k hk2 hk
  · intro p hp hp2
    exact h.2 p hp2 hp

theorem combineGo_eq_map : ∀ (l : List WellFormedTxContext)
    (uKi : List KeyImage) (uPk : List CompressedRistrettoPublic) (budget : Nat),
    combineGo uKi uPk budget l =
      (combineAcceptedGo uKi uPk budget l).map (fun c => c.tx_hash) := by
  intro l
  induction l with
  | nil => intro uKi uPk budget; rfl
  | cons c rest ih =>
    intro uKi uPk budget
    simp only [combineGo, combineAcceptedGo]
    split_ifs with h0 h1 h2
    · rfl
    · exact ih uKi uPk budget
    · exact ih uKi uPk budget
    · simp [ih]

theorem combineAcceptedGo_length : ∀ (l : List WellFormedTxContext)
    (uKi : List KeyImage) (uPk : List CompressedRistrettoPublic) (budget : Nat),
    (combineAcceptedGo uKi uPk budget l).length ≤ min budget l.length := by
  intro l
  induction l with
  | nil => intro uKi uPk budget; simp [combineAcceptedGo]
  | cons c rest ih =>
    intro uKi uPk budget
    simp only [combineAcceptedGo]
    split_ifs with h0 h1 h2
    · simp
    · have := ih uKi uPk budget
      simp only [List.length_cons]
      omega
    · have := ih uKi uPk budget
      simp only [List.length_cons]
      omega
    · have := ih (uKi ++ c.key_images) (uPk ++ c.output_public_keys) (budget - 1)
      simp only [List.length_cons]
      omega

theorem combineAcceptedGo_inv : ∀ (l : List WellFormedTxContext)
    (uKi : List KeyImage) (uPk : List CompressedRistrettoPublic) (budget : Nat),
    (∀ c ∈ combineAcceptedGo uKi uPk budget l,
        (∀ k ∈ c.key_images, k ∉ uKi) ∧ (∀ p ∈ c.output_public_keys, p ∉ uPk))
    ∧ List.Pairwise disjointCtx (combineAcceptedGo uKi uPk budget l) := by
  intro l
  induction l with
  | nil => intro uKi uPk budget; simp [combineAcceptedGo]
  | cons c rest ih =>
    intro uKi uPk budget
    simp only [combineAcceptedGo]
    split_ifs with h0 h1 h2
    · simp
    · exact ih uKi uPk budget
    · exact ih uKi uPk budget
    · have hki : ∀ k ∈ c.key_images, k ∉ uKi := by
        intro k hk
        simp only [List.any_eq_true, decide_eq_true_eq, not_exists] at h1
        intro hmem
        exact h1 k ⟨hk, hmem⟩
      have hpk : ∀ p ∈ c.output_public_keys, p ∉ uPk := by
        intro p hp
        simp only [List.any_eq_true, decide_eq_true_eq, not_exists] at h2
        intro hmem
        exact h2 p ⟨hp, hmem⟩
      have ihres := ih (uKi ++ c.key_images) (uPk ++ c.output_public_keys) (budget - 1)
      constructor
      · intro c2 hc2
        rcases List.mem_cons.mp hc2 with h | h
        · subst h
          exact ⟨hki, hpk⟩
        · have := ihres.1 c2 h
          constructor
          · intro k hk
            have := this.1 k hk
            simp only [List.mem_append, not_or] at this
            exact this.1
          · intro p hp
            have := this.2 p hp
            simp only [List.mem_append, not_or] at this
            exact this.1
      · refine List.pairwise_cons.mpr ⟨?_, ihres.2⟩
        intro c2 hc2
        have havoid := ihres.1 c2 hc2
        constructor
        · intro k hk hk2
          have := havoid.1 k hk2
          simp only [List.mem_append, not_or] at this
          exact this.2 hk
        · intro p hp hp2
          have := havoid.2 p hp2
          simp only [List.mem_append, not_or] at this
          exact this.2 hp

theorem combineGo_all_accepted : ∀ (l : List WellFormedTxContext)
    (uKi : List KeyImage) (uPk : List CompressedRistrettoPublic) (budget : Nat),
    List.Pairwise disjointCtx l →
    (∀ c ∈ l, (∀ k ∈ c.key_images, k ∉ uKi) ∧
      (∀ p ∈ c.output_public_keys, p ∉ uPk)) →
    combineGo uKi uPk budget l = (l.take budget).map (fun c => c.tx_hash) := by
  intro l
  induction l with
  | nil => intro uKi uPk budget _ _; simp [combineGo]
  | cons c rest ih =>
    intro uKi uPk budget hp hall
    rcases List.pairwise_cons.mp hp with ⟨hhead, htail⟩
    have hc := hall c (List.mem_cons_self c rest)
    cases budget with
    | zero => simp [combineGo]
    | succ n =>
      have h1 : c.key_images.any (fun k => decide (k ∈ uKi)) = false := by
        simp only [List.any_eq_false, decide_eq_true_eq]
        intro k hk
        exact hc.1 k hk
      have h2 : c.output_public_keys.any (fun p => decide (p ∈ uPk)) = false := by
        simp only [List.any_eq_false, decide_eq_true_eq]
        intro p hp
        exact hc.2 p hp
      simp only [combineGo, h1, h2, Nat.succ_ne_zero, if_false, Bool.false_eq_true,
        Nat.succ_sub_one, List.take_succ_cons, List.map_cons]
      congr 1
      apply ih _ _ n htail
      intro r hr
      have hrprev := hall r (List.mem_cons_of_mem c hr)
      have hdisj := hhead r hr
      constructor
      · intro k hk
        simp only [List.mem_append, not_or]
        refine ⟨hrprev.1 k hk, ?_⟩
        intro hkc
        exact hdisj.1 k hkc hk
      · intro p hp
        simp only [List.mem_append, not_or]
        refine ⟨hrprev.2 p hp, ?_⟩
        intro hpc
        exact hdisj.2 p hpc hp

/-! Helper lemmas about the validators. -/

theorem unwrapOr_true_iff (r : Except String Bool) :
    unwrapOr r true = true ↔
      (r = Except.ok true ∨ ∃ e, r = Except.error e) := by
  cases r with
  | error e => simp [unwrapOr]
  | ok b => simp [unwrapOr]

theorem anyKi_iff (L : Ledger) (l : List KeyImage) :
    (l.any (fun k => unwrapOr (L.contains_key_image k) true) = true) ↔
      ∃ k ∈ l, queryFlagsSpent L k := by
  rw [List.any_eq_true]
  constructor
  · intro ⟨k, hk, hflag⟩
    exact ⟨k, hk, (unwrapOr_true_iff _).mp hflag⟩
  · intro ⟨k, hk, hflag⟩
    exact ⟨k, hk, (unwrapOr_true_iff _).mpr hflag⟩

theorem anyPk_iff (L : Ledger) (l : List CompressedRistrettoPublic) :
    (l.any (fun p => unwrapOr (L.contains_tx_out_public_key p) true) = true) ↔
      ∃ p ∈ l, queryFlagsExisting L p := by
  rw [List.any_eq_true]
  constructor
  · intro ⟨p, hp, hflag⟩
    exact ⟨p, hp, (unwrapOr_true_iff _).mp hflag⟩
  · intro ⟨p, hp, hflag⟩
    exact ⟨p, hp, (unwrapOr_true_iff _).mpr hflag⟩

/-- C3: when the num_blocks query of the ledger succeeds with value n,
is_valid returns TombstoneBlockExceeded iff tombstone_block is at most n; in
particular a transaction with tombstone_block = n is expired, and one with
tombstone_block = n + 1 passes the tombstone check. -/
theorem is_valid_tombstone_iff (L : Ledger) (ctx : WellFormedTxContext) (n : Nat)
    (h : L.num_blocks = Except.ok n) :
    (is_valid L ctx = Except.error TransactionValidationError.TombstoneBlockExceeded
      ↔ ctx.tombstone_block ≤ n) ∧
    (ctx.tombstone_block = n →
      is_valid L ctx =
        Except.error TransactionValidationError.TombstoneBlockExceeded) ∧
    (ctx.tombstone_block = n + 1 →
      validate_tombstone n ctx.tombstone_block = Except.ok ()) := by
  by_cases htomb : ctx.tombstone_block ≤ n
  · refine ⟨?_, ?_, ?_⟩
    · simp [is_valid, h, validate_tombstone, htomb]
    · intro _
      simp [is_valid, h, validate_tombstone, htomb]
    · intro heq
      omega
  · have hshape : is_valid L ctx =
        Except.error TransactionValidationError.ContainsSpentKeyImage ∨
        is_valid L ctx =
          Except.error TransactionValidationError.ContainsExistingOutputPublicKey ∨
        is_valid L ctx = Except.ok () := by
      simp only [is_valid, h, validate_tombstone, if_neg htomb]
      split_ifs <;> simp
    refine ⟨?_, ?_, ?_⟩
    · constructor
      · intro hres
        exfalso
        rcases hshape with h1 | h1 | h1 <;> rw [h1] at hres <;> simp at hres
      · intro hle
        exact absurd hle htomb
    · intro heq
      exfalso
      omega
    · intro heq
      rw [validate_tombstone, if_neg (by omega)]

/-- C3 witness: against a ledger with three blocks, a transaction whose
tombstone block is 3 is rejected as expired. -/
theorem is_valid_tombstone_iff_witness :
    is_valid ledgerC3 ctxC3 =
      Except.error TransactionValidationError.TombstoneBlockExceeded ∧
    ctxC3.tombstone_block ≤ 3 :=
  ⟨(is_valid_tombstone_iff ledgerC3 ctxC3 3 rfl).2.1 rfl, by decide⟩

/-- C4: once the tombstone check passes, is_valid reports
ContainsSpentKeyImage iff some key image is in the ledger or its query
errored; only when no key image is flagged does the output-key check run,
reporting ContainsExistingOutputPublicKey iff some output public key is in
the ledger or its query errored; when neither check fires, it accepts. The
first conjunct holds unconditionally on the output-key state, so a
transaction failing both boolean checks reports ContainsSpentKeyImage. -/
theorem is_valid_check_order (L : Ledger) (ctx : WellFormedTxContext) (n : Nat)
    (h : L.num_blocks = Except.ok n) (htomb : n < ctx.tombstone_block) :
    (is_valid L ctx = Except.error TransactionValidationError.ContainsSpentKeyImage
      ↔ ∃ k ∈ ctx.key_images, queryFlagsSpent L k) ∧
    ((∀ k ∈ ctx.key_images, ¬ queryFlagsSpent L k) →
      (is_valid L ctx =
          Except.error TransactionValidationError.ContainsExistingOutputPublicKey
        ↔ ∃ p ∈ ctx.output_public_keys, queryFlagsExisting L p)) ∧
    ((∀ k ∈ ctx.key_images, ¬ queryFlagsSpent L k) →
      (∀ p ∈ ctx.output_public_keys, ¬ queryFlagsExisting L p) →
      is_valid L ctx = Except.ok ()) := by
  have hnotle : ¬ (ctx.tombstone_block ≤ n) := by omega
  by_cases hki : ctx.key_images.any
      (fun k => unwrapOr (L.contains_key_image k) true) = true
  · have hval : is_valid L ctx =
        Except.error TransactionValidationError.ContainsSpentKeyImage := by
      simp [is_valid, h, validate_tombstone, hnotle, hki]
    rcases (anyKi_iff L ctx.key_images).mp hki with ⟨k, hkmem, hflag⟩
    refine ⟨?_, ?_, ?_⟩
    · rw [hval]
      constructor
      · intro _
        exact ⟨k, hkmem, hflag⟩
      · intro _
        rfl
    · intro hnone
      exact absurd hflag (hnone k hkmem)
    · intro hnone _
      exact absurd hflag (hnone k hkmem)
  · by_cases hpk : ctx.output_public_keys.any
        (fun p => unwrapOr (L.contains_tx_out_public_key p) true) = true
    · have hval : is_valid L ctx =
          Except.error TransactionValidationError.ContainsExistingOutputPublicKey := by
        simp [is_valid, h, validate_tombstone, hnotle, hki, hpk]
      refine ⟨?_, ?_, ?_⟩
      · rw [hval]
        constructor
        · intro habs
          simp at habs
        · intro hex
          exact absurd ((anyKi_iff L ctx.key_images).mpr hex) hki
      · intro _
        rw [hval]
        constructor
        · intro _
          exact (anyPk_iff L ctx.output_public_keys).mp hpk
        · intro _
          rfl
      · intro _ hnone
        rcases (anyPk_iff L ctx.output_public_keys).mp hpk with ⟨p, hpmem, hflag⟩
        exact absurd hflag (hnone p hpmem)
    · have hval : is_valid L ctx = Except.ok () := by
        simp [is_valid, h, validate_tombstone, hnotle, hki, hpk]
      refine ⟨?_, ?_, ?_⟩
      · rw [hval]
        constructor
        · intro habs
          simp at habs
        · intro hex
          exact absurd ((anyKi_iff L ctx.key_images).mpr hex) hki
      · intro _
        rw [hval]
        constructor
        · intro habs
          simp at habs
        · intro hex
          exact absurd ((anyPk_iff L ctx.output_public_keys).mpr hex) hpk
      · intro _ _
        exact hval

/-- C4 witness: a transaction whose key-image query errors and whose output
public key already exists in the ledger reports ContainsSpentKeyImage, the
earlier check in the fixed order. -/
theorem is_valid_check_order_witness :
    is_valid ledgerC4 ctxC4 =
      Except.error TransactionValidationError.ContainsSpentKeyImage ∧
    (∃ p ∈ ctxC4.output_public_keys, queryFlagsExisting ledgerC4 p) :=
  ⟨(is_valid_check_order ledgerC4 ctxC4 3 rfl (by decide)).1.mpr
      ⟨2, by decide, Or.inr ⟨"io", rfl⟩⟩,
    ⟨5, by decide, Or.inl rfl⟩⟩

/-- C7: well_formed_check fails with a Ledger error whenever the proof
query fails (regardless of the state of num_blocks, since the proofs are
fetched first) or the block-count query fails; it has no other failure
mode; on success it returns exactly (num_blocks - 1, proofs), with one
proof per requested index when the ledger answers one proof per index; and
when the ledger fails proof queries holding an index at or beyond its total
TxOut count, an out-of-range request makes well_formed_check return a
Ledger error. -/
theorem well_formed_check_contract (L : Ledger) (tc : TxContext) :
    (∀ e, L.get_tx_out_proof_of_memberships tc.highest_indices = Except.error e →
      well_formed_check L tc =
        Except.error (TransactionValidationError.Ledger e)) ∧
    (∀ ps e, L.get_tx_out_proof_of_memberships tc.highest_indices = Except.ok ps →
      L.num_blocks = Except.error e →
      well_formed_check L tc =
        Except.error (TransactionValidationError.Ledger e)) ∧
    (∀ ps n, L.get_tx_out_proof_of_memberships tc.highest_indices = Except.ok ps →
      L.num_blocks = Except.ok n →
      well_formed_check L tc = Except.ok (u64_sub n 1, ps)) ∧
    (∀ err, well_formed_check L tc = Except.error err →
      ∃ e, err = TransactionValidationError.Ledger e) ∧
    ((∀ idx ps, L.get_tx_out_proof_of_memberships idx = Except.ok ps →
        ps.length = idx.length) →
      ∀ c ps, well_formed_check L tc = Except.ok (c, ps) →
        ps.length = tc.highest_indices.length) ∧
    ((∀ idx, (∃ i ∈ idx, L.num_tx_outs ≤ i) →
        ∃ e, L.get_tx_out_proof_of_memberships idx = Except.error e) →
      (∃ i ∈ tc.highest_indices, L.num_tx_outs ≤ i) →
      ∃ e, well_formed_check L tc =
        Except.error (TransactionValidationError.Ledger e)) := by
  refine ⟨?_, ?_, ?_, ?_, ?_, ?_⟩
  · intro e he
    simp [well_formed_check, he]
  · intro ps e hps hnb
    simp [well_formed_check, hps, hnb]
  · intro ps n hps hnb
    simp [well_formed_check, hps, hnb]
  · intro err herr
    cases hps : L.get_tx_out_proof_of_memberships tc.highest_indices with
    | error e =>
      refine ⟨e, ?_⟩
      simp [well_formed_check, hps] at herr
      exact herr.symm
    | ok ps =>
      cases hnb : L.num_blocks with
      | error e2 =>
        refine ⟨e2, ?_⟩
        simp [well_formed_check, hps, hnb] at herr
        exact herr.symm
      | ok n =>
        simp [well_formed_check, hps, hnb] at herr
  · intro hlen c ps hok
    cases hps : L.get_tx_out_proof_of_memberships tc.highest_indices with
    | error e => simp [well_formed_check, hps] at hok
    | ok ps2 =>
      cases hnb : L.num_blocks with
      | error e2 => simp [well_formed_check, hps, hnb] at hok
      | ok n =>
        simp [well_formed_check, hps, hnb] at hok
        rw [← hok.2]
        exact hlen tc.highest_indices ps2 hps
  · intro hrange hex
    rcases hrange tc.highest_indices hex with ⟨e, he⟩
    exact ⟨e, by simp [well_formed_check, he]⟩

/-- C7 witness: against a ledger whose proof query fails with message io,
well_formed_check returns that Ledger error. -/
theorem well_formed_check_contract_witness :
    well_formed_check ledgerC7 tcC7 =
      Except.error (TransactionValidationError.Ledger "io") :=
  (well_formed_check_contract ledgerC7 tcC7).1 "io" rfl

/-- C9: when both ledger calls succeed but the ledger reports zero blocks,
the u64 subtraction num_blocks - 1 underflows (wrapping to 2 ^ 64 - 1 in a
release build) and the function answers successfully instead of returning a
Ledger error; for every block count of at least one, the subtraction is
safe and yields num_blocks - 1. -/
theorem well_formed_check_zero_blocks (L : Ledger) (tc : TxContext)
    (ps : List TxOutMembershipProof)
    (hp : L.get_tx_out_proof_of_memberships tc.highest_indices = Except.ok ps) :
    (L.num_blocks = Except.ok 0 →
      u64SubUnderflows 0 1 ∧
      well_formed_check L tc = Except.ok (2 ^ 64 - 1, ps)) ∧
    (∀ n, L.num_blocks = Except.ok n → 1 ≤ n →
      ¬ u64SubUnderflows n 1 ∧
      (n < 2 ^ 64 → well_formed_check L tc = Except.ok (n - 1, ps))) := by
  constructor
  · intro h0
    constructor
    · unfold u64SubUnderflows
      omega
    · have hsub : u64_sub 0 1 = 2 ^ 64 - 1 := by
        unfold u64_sub U64_LIMIT
        omega
      simp [well_formed_check, hp, h0, hsub]
  · intro n hn h1
    constructor
    · unfold u64SubUnderflows
      omega
    · intro hlt
      have hsub : u64_sub n 1 = n - 1 := by
        unfold u64_sub U64_LIMIT
        omega
      simp [well_formed_check, hp, hn, hsub]

/-- C9 witness: a zero-block ledger with a successful proof query makes
well_formed_check answer with the wrapped index 2 ^ 64 - 1. -/
theorem well_formed_check_zero_blocks_witness :
    u64SubUnderflows 0 1 ∧
    well_formed_check ledgerC9 tcC9 = Except.ok (2 ^ 64 - 1, [0, 2]) :=
  (well_formed_check_zero_blocks ledgerC9 tcC9 [0, 2] rfl).1 rfl

/-- C6: on an unattested connection, attested_call propagates an attest
failure without invoking func; on attest success it calls attest exactly
once, before func; a func failure with the UNAUTHENTICATED status leaves
the connection unattested on return; and any transport error of func is
surfaced unchanged, wrapped only by the From conversion into the
connection error type. -/
theorem attested_call_from_unattested (T : Type) (s : ConnState)
    (attestRes : Except PeerError Unit) (fRes : Except GrpcError T)
    (h : s.attested = false) :
    (∀ e, attestRes = Except.error e →
      attestedCall T s attestRes fRes = (s, Except.error e, [CallEvent.attestCall])) ∧
    (attestRes = Except.ok () →
      (attestedCall T s attestRes fRes).2.2.take 2 =
          [CallEvent.attestCall, CallEvent.fCall] ∧
      (attestedCall T s attestRes fRes).2.2.count CallEvent.attestCall = 1) ∧
    (attestRes = Except.ok () →
      fRes = Except.error (GrpcError.rpcFailure UNAUTHENTICATED) →
      (attestedCall T s attestRes fRes).1.attested = false) ∧
    (∀ g, attestRes = Except.ok () → fRes = Except.error g →
      (attestedCall T s attestRes fRes).2.1 = Except.error (PeerError.grpc g)) := by
  refine ⟨?_, ?_, ?_, ?_⟩
  · intro e he
    subst he
    simp [attestedCall, h]
  · intro hok
    subst hok
    cases fRes with
    | ok t =>
      constructor <;> simp [attestedCall, attestedCallBody, h]
    | error g =>
      cases g with
      | rpcFailure st =>
        by_cases hst : st = UNAUTHENTICATED <;>
          constructor <;> simp [attestedCall, attestedCallBody, h, hst]
      | other c =>
        constructor <;> simp [attestedCall, attestedCallBody, h]
  · intro hok hf
    subst hok
    subst hf
    simp [attestedCall, attestedCallBody, h]
  · intro g hok hf
    subst hok
    subst hf
    cases g with
    | rpcFailure st =>
      by_cases hst : st = UNAUTHENTICATED <;>
        simp [attestedCall, attestedCallBody, h, hst]
    | other c =>
      simp [attestedCall, attestedCallBody, h]

/-- C6 witness: starting unattested with a successful attest and a func
answering UNAUTHENTICATED, the call attests before func, ends unattested,
and surfaces the transport error unchanged. -/
theorem attested_call_from_unattested_witness :
    (attestedCall Nat ⟨false⟩ (Except.ok ())
        (Except.error (GrpcError.rpcFailure 16))).1.attested = false ∧
    (attestedCall Nat ⟨false⟩ (Except.ok ())
        (Except.error (GrpcError.rpcFailure 16))).2.2.take 2 =
      [CallEvent.attestCall, CallEvent.fCall] ∧
    (attestedCall Nat ⟨false⟩ (Except.ok ())
        (Except.error (GrpcError.rpcFailure 16))).2.1 =
      Except.error (PeerError.grpc (GrpcError.rpcFailure 16)) := by
  have hthm := attested_call_from_unattested Nat ⟨false⟩ (Except.ok ())
    (Except.error (GrpcError.rpcFailure 16)) rfl
  exact ⟨hthm.2.2.1 rfl rfl, (hthm.2.1 rfl).1, hthm.2.2.2 _ rfl rfl⟩

/-- C10: attested_call changes the attestation flag only through the
initial attest of an unattested connection and through the deattest
performed on an UNAUTHENTICATED failure of func: whenever func runs and
does not fail with UNAUTHENTICATED, the connection is attested on return
exactly as it was when func was invoked; when attest fails the state is
returned untouched; and the UNAUTHENTICATED case ends unattested. -/
theorem attested_call_state_frame (T : Type) (s : ConnState)
    (attestRes : Except PeerError Unit) (fRes : Except GrpcError T) :
    ((s.attested = true ∨ attestRes = Except.ok ()) →
      fRes ≠ Except.error (GrpcError.rpcFailure UNAUTHENTICATED) →
      (attestedCall T s attestRes fRes).1.attested = true) ∧
    (∀ e, s.attested = false → attestRes = Except.error e →
      (attestedCall T s attestRes fRes).1 = s) ∧
    ((s.attested = true ∨ attestRes = Except.ok ()) →
      fRes = Except.error (GrpcError.rpcFailure UNAUTHENTICATED) →
      (attestedCall T s attestRes fRes).1.attested = false) := by
  have hbody : ∀ s1 : ConnState, ∀ pre : List CallEvent,
      fRes ≠ Except.error (GrpcError.rpcFailure UNAUTHENTICATED) →
      (attestedCallBody T s1 fRes pre).1 = s1 := by
    intro s1 pre hne
    cases fRes with
    | ok t => simp [attestedCallBody]
    | error g =>
      cases g with
      | rpcFailure st =>
        have hst : st ≠ UNAUTHENTICATED := by
          intro hey
          subst hey
          exact hne rfl
        simp [attestedCallBody, hst]
      | other c => simp [attestedCallBody]
  have hbody2 : ∀ s1 : ConnState, ∀ pre : List CallEvent,
      fRes = Except.error (GrpcError.rpcFailure UNAUTHENTICATED) →
      (attestedCallBody T s1 fRes pre).1.attested = false := by
    intro s1 pre hf
    subst hf
    simp [attestedCallBody]
  refine ⟨?_, ?_, ?_⟩
  · intro hinv hne
    by_cases hatt : s.attested = true
    · rw [show attestedCall T s attestRes fRes = attestedCallBody T s fRes [] by
        simp [attestedCall, hatt]]
      rw [hbody s [] hne]
      exact hatt
    · have hfalse : s.attested = false := by
        cases hb : s.attested
        · rfl
        · exact absurd hb hatt
      rcases hinv with hinv | hinv
      · exact absurd hinv hatt
      · subst hinv
        rw [show attestedCall T s (Except.ok ()) fRes =
            attestedCallBody T ⟨true⟩ fRes [CallEvent.attestCall] by
          simp [attestedCall, hfalse]]
        rw [hbody ⟨true⟩ [CallEvent.attestCall] hne]
  · intro e hfalse herr
    subst herr
    simp [attestedCall, hfalse]
  · intro hinv hf
    by_cases hatt : s.attested = true
    · rw [show attestedCall T s attestRes fRes = attestedCallBody T s fRes [] by
        simp [attestedCall, hatt]]
      exact hbody2 s [] hf
    · have hfalse : s.attested = false := by
        cases hb : s.attested
        · rfl
        · exact absurd hb hatt
      rcases hinv with hinv | hinv
      · exact absurd hinv hatt
      · subst hinv
        rw [show attestedCall T s (Except.ok ()) fRes =
            attestedCallBody T ⟨true⟩ fRes [CallEvent.attestCall] by
          simp [attestedCall, hfalse]]
        exact hbody2 ⟨true⟩ [CallEvent.attestCall] hf

/-- C10 witness: an attested connection whose func succeeds is still
attested on return. -/
theorem attested_call_state_frame_witness :
    (attestedCall Nat ⟨true⟩ (Except.ok ()) (Except.ok 7)).1.attested = true := by
  have hthm := attested_call_state_frame Nat ⟨true⟩ (Except.ok ()) (Except.ok 7)
  exact hthm.1 (Or.inl rfl) (by simp)

/-! Helper lemmas about the connection-manager map. -/

theorem mg_append_of_none : ∀ (m l2 : List (Nat × PeerConn)) (r : Nat),
    managerGet m r = none → managerGet (m ++ l2) r = managerGet l2 r := by
  intro m
  induction m with
  | nil => intro l2 r _; rfl
  | cons kv rest ih =>
    intro l2 r h
    by_cases hk : kv.1 = r
    · simp [managerGet, hk] at h
    · simp only [managerGet, if_neg hk] at h
      simp only [List.cons_append, managerGet, if_neg hk]
      exact ih l2 r h

theorem mg_append_of_some : ∀ (m l2 : List (Nat × PeerConn)) (r : Nat)
    (c : PeerConn), managerGet m r = some c → managerGet (m ++ l2) r = some c := by
  intro m
  induction m with
  | nil => intro l2 r c h; simp [managerGet] at h
  | cons kv rest ih =>
    intro l2 r c h
    by_cases hk : kv.1 = r
    · simp only [managerGet, if_pos hk] at h
      simp only [List.cons_append, managerGet, if_pos hk]
      exact h
    · simp only [managerGet, if_neg hk] at h
      simp only [List.cons_append, managerGet, if_neg hk]
      exact ih l2 r c h

theorem mg_any_false : ∀ (m : List (Nat × PeerConn)) (r : Nat),
    m.any (fun kv => decide (kv.1 = r)) = false → managerGet m r = none := by
  intro m
  induction m with
  | nil => intro r _; rfl
  | cons kv rest ih =>
    intro r h
    simp only [List.any_cons, Bool.or_eq_false_iff, decide_eq_false_iff_not] at h
    simp only [managerGet, if_neg h.1]
    apply ih
    exact h.2

theorem mg_map_self : ∀ (m : List (Nat × PeerConn)) (k : Nat) (v : PeerConn),
    m.any (fun kv => decide (kv.1 = k)) = true →
    managerGet (m.map (fun kv => if kv.1 = k then (k, v) else kv)) k = some v := by
  intro m
  induction m with
  | nil => intro k v h; simp at h
  | cons kv rest ih =>
    intro k v h
    by_cases hk : kv.1 = k
    · simp [managerGet, hk]
    · simp only [List.any_cons, Bool.or_eq_true, decide_eq_true_eq] at h
      rcases h with h | h
      · exact absurd h hk
      · simp only [List.map_cons, if_neg hk, managerGet, if_neg hk]
        exact ih k v h

theorem mg_map_other : ∀ (m : List (Nat × PeerConn)) (k : Nat) (v : PeerConn)
    (r : Nat), k ≠ r →
    managerGet (m.map (fun kv => if kv.1 = k then (k, v) else kv)) r =
      managerGet m r := by
  intro m
  induction m with
  | nil => intro k v r _; rfl
  | cons kv rest ih =>
    intro k v r hkr
    by_cases hk : kv.1 = k
    · have hnr : kv.1 ≠ r := by rw [hk]; exact hkr
      simp only [List.map_cons, if_pos hk, managerGet, if_neg hkr, if_neg hnr]
      exact ih k v r hkr
    · simp only [List.map_cons, if_neg hk, managerGet]
      by_cases hr : kv.1 = r
      · simp [if_pos hr]
      · simp only [if_neg hr]
        exact ih k v r hkr

theorem managerGet_hashMapInsert (m : List (Nat × PeerConn)) (k : Nat)
    (v : PeerConn) (r : Nat) :
    managerGet (hashMapInsert m k v) r =
      if k = r then some v else managerGet m r := by
  unfold hashMapInsert
  split_ifs with hany hkr hkr2
  · subst hkr
    exact mg_map_self m k v hany
  · exact mg_map_other m k v r hkr
  · subst hkr2
    simp only [Bool.not_eq_true] at hany
    rw [mg_append_of_none m [(k, v)] k (mg_any_false m k hany)]
    simp [managerGet]
  · cases hm : managerGet m r with
    | none =>
      rw [mg_append_of_none m [(k, v)] r hm]
      simp [managerGet, hkr2]
    | some c =>
      exact mg_append_of_some m [(k, v)] r c hm

theorem connectionManagerNew_get_aux : ∀ (conns : List PeerConn)
    (m : List (Nat × PeerConn)) (r : Nat),
    managerGet (conns.foldl
        (fun acc conn => hashMapInsert acc conn.responder_id conn) m) r =
      match lastConnWith conns r with
      | some c => some c
      | none => managerGet m r := by
  intro conns
  induction conns with
  | nil => intro m r; simp [lastConnWith]
  | cons c cs ih =>
    intro m r
    simp only [List.foldl_cons, lastConnWith]
    rw [ih (hashMapInsert m c.responder_id c) r]
    cases hlast : lastConnWith cs r with
    | some c2 => simp
    | none =>
      rw [managerGet_hashMapInsert]
      by_cases hcr : c.responder_id = r
      · simp [hcr]
      · simp [hcr]

/-- C5 counterexample: two distinct connections sharing ResponderId 5 are
accepted by construction, which succeeds and silently keeps only the later
one, instead of failing. -/
theorem connection_manager_new_accepts_duplicates :
    dupA ≠ dupB ∧ dupA.responder_id = dupB.responder_id ∧
    connectionManagerNew [dupA, dupB] = [(5, dupB)] ∧
    managerGet (connectionManagerNew [dupA, dupB]) 5 = some dupB ∧
    (connectionManagerNew [dupA, dupB]).length = 1 := by decide

/-- C5 (amended): ConnectionManager construction never fails on duplicate
responder ids; for every connection list, looking a ResponderId up in the
constructed manager yields the last connection of the list deriving that
id, so all but the last duplicate are silently dropped. -/
theorem connection_manager_new_keeps_last (conns : List PeerConn) (r : Nat) :
    managerGet (connectionManagerNew conns) r = lastConnWith conns r := by
  unfold connectionManagerNew
  rw [connectionManagerNew_get_aux conns [] r]
  cases hlast : lastConnWith conns r <;> simp [managerGet]

/-- C1 counterexample: the four well-formed contexts c1p, c1a, c1b, c1d with
c1a and c1b tied under the sort order (same fee 1 and same hash) but
distinct and mutually conflicting give different combine outputs on two
permutations of the same multiset, so combine is not invariant under every
input permutation. -/
theorem combine_not_permutation_invariant :
    List.Perm [c1p, c1a, c1b, c1d] [c1p, c1b, c1a, c1d] ∧
    combine [c1p, c1a, c1b, c1d] 10 = [[0], [5], [7]] ∧
    combine [c1p, c1b, c1a, c1d] 10 = [[0], [5]] ∧
    combine [c1p, c1a, c1b, c1d] 10 ≠ combine [c1p, c1b, c1a, c1d] 10 := by
  decide

/-- C1 (amended): combine is invariant under input permutation for every
candidate sequence in which contexts tied under the sort order (equal fee
and equal tx_hash) are actually equal, in particular whenever tx hashes are
pairwise distinct. -/
theorem combine_permutation_invariant (S1 S2 : List WellFormedTxContext) (N : Nat)
    (hperm : List.Perm S1 S2)
    (hkeys : ∀ a ∈ S2, ∀ b ∈ S2, cmpCtx a b = Ordering.eq → a = b) :
    combine S1 N = combine S2 N := by
  unfold combine
  rw [insertionSort_eq_of_perm S1 S2 hperm hkeys]

/-- C1 witness: two contexts with distinct fees combine to the same output
in either nomination order. -/
theorem combine_permutation_invariant_witness :
    List.Perm [c1x, c1y] [c1y, c1x] ∧
    (∀ a ∈ [c1y, c1x], ∀ b ∈ [c1y, c1x], cmpCtx a b = Ordering.eq → a = b) ∧
    combine [c1x, c1y] 5 = combine [c1y, c1x] 5 :=
  ⟨by decide, by decide, combine_permutation_invariant [c1x, c1y] [c1y, c1x] 5
    (by decide) (by decide)⟩

/-- C2: the combine output is the hash list of the accepted contexts, its
length is at most the minimum of the bound and the input size, and any two
distinct accepted contexts have disjoint key-image sets and disjoint
output-public-key sets. -/
theorem combine_length_and_disjoint (S : List WellFormedTxContext) (N : Nat) :
    combine S N = (combineAccepted S N).map (fun c => c.tx_hash) ∧
    (combine S N).length ≤ min N S.length ∧
    List.Pairwise disjointCtx (combineAccepted S N) := by
  refine ⟨combineGo_eq_map _ _ _ _, ?_, (combineAcceptedGo_inv _ _ _ _).2⟩
  have h1 := combineAcceptedGo_length (List.insertionSort ctxLe S) [] [] N
  have hlen := (List.perm_insertionSort ctxLe S).length_eq
  unfold combine
  rw [combineGo_eq_map, List.length_map]
  omega

/-- C8: on a conflict-free candidate set, combine returns exactly the first
N hashes of the candidates sorted by fee descending with ties broken by
tx_hash ascending, so the output is ordered by the total order on
well-formed tx contexts. -/
theorem combine_conflict_free_sorted (S : List WellFormedTxContext) (N : Nat)
    (h : List.Pairwise disjointCtx S) :
    combine S N =
      ((List.insertionSort ctxLe S).take N).map (fun c => c.tx_hash) := by
  unfold combine
  apply combineGo_all_accepted _ _ _ _
    (((List.perm_insertionSort ctxLe S).pairwise_iff
      (fun hab => disjointCtx_symm hab)).mpr h)
  intro c _
  exact ⟨fun k _ hk => by simp at hk, fun p _ hp => by simp at hp⟩

/-- C8 witness: the spec example with fees 100, 557 and 88 and hashes the
32-byte arrays of 1, 2, 3 combines to the hashes in order 2, 1, 3. -/
theorem combine_conflict_free_sorted_witness :
    List.Pairwise disjointCtx [c8a, c8b, c8c] ∧
    combine [c8a, c8b, c8c] 10 =
      [List.replicate 32 2, List.replicate 32 1, List.replicate 32 3] :=
  ⟨by decide,
    (combine_conflict_free_sorted [c8a, c8b, c8c] 10 (by decide)).trans (by decide)⟩

end MobileCoin
